import Mathlib

/-!
Verification of the storage-engine core (buffer pool manager, LRU-K
replacer, extendible hash table, B+ tree pages) of a BusTub-derived
database, as a shallow embedding in Lean 4.

Machine integers of the C++ source are modelled as `Nat`/`Int`; C++
out-parameters become `Option` results; pointer aliasing of hash buckets
(`std::shared_ptr<Bucket>`) is modelled by an arena of buckets indexed by
bucket id, exactly as the spec's design note recommends.  Each definition
mirrors one function of the source files under `src/`.
-/

/-! ## Extendible hash table (`container/hash/extendible_hash_table.cpp`)

Keys and values are instantiated at `Nat` (the source instantiates the
template at `int, int`, among others); the `std::hash` function is a
parameter `h`.  Buckets are `std::shared_ptr`-aliased by several directory
slots, so the state keeps an arena `store` of buckets and the directory
`dir_` holds bucket ids. -/

/-- One bucket of the extendible hash table: capacity `size_`, local depth
`depth_`, and the key-value list `list_` (class
`ExtendibleHashTable::Bucket`). -/
structure Bucket where
  size_ : Nat
  depth_ : Nat
  list_ : List (Nat × Nat)
deriving Repr, DecidableEq

/-- Modelled from the spec: `Bucket::IsFull` lives in the missing header
`extendible_hash_table.h`; the spec bounds each bucket's list by
`bucket_size`, so a bucket is full when its list has reached capacity. -/
def Bucket.IsFull (b : Bucket) : Bool :=
  b.size_ ≤ b.list_.length

/-- `Bucket::Find`: linear scan of the list; the out-parameter becomes an
`Option` result. -/
def Bucket.Find (b : Bucket) (key : Nat) : Option Nat :=
  (b.list_.find? (fun p => p.1 == key)).map (fun p => p.2)

/-- Overwrite the value stored with the first occurrence of `key` (the
reference-taking range-for at the top of `Bucket::Insert`). -/
def replaceValue : List (Nat × Nat) → Nat → Nat → List (Nat × Nat)
  | [], _, _ => []
  | p :: rest, key, value =>
    if p.1 == key then (p.1, value) :: rest
    else p :: replaceValue rest key value

/-- `Bucket::Insert`: overwrite if the key is present, append if there is
room, otherwise fail; returns the updated bucket and the `bool` result. -/
def Bucket.Insert (b : Bucket) (key value : Nat) : Bucket × Bool :=
  if (b.list_.find? (fun p => p.1 == key)).isSome then
    ({ b with list_ := replaceValue b.list_ key value }, true)
  else if !b.IsFull then
    ({ b with list_ := b.list_ ++ [(key, value)] }, true)
  else
    (b, false)

/-- State of `ExtendibleHashTable<K, V>`: the directory `dir_` holds bucket
ids into the arena `store` (several slots may alias one bucket, as the
`shared_ptr` directory does in the source). -/
structure EHT where
  bucket_size_ : Nat
  global_depth_ : Nat
  num_buckets_ : Nat
  store : List Bucket
  dir_ : List Nat
deriving Repr, DecidableEq

/-- The constructor: one empty bucket of depth 0, directory of size 1
(`global_depth_` starts at 0 and `num_buckets_` at 1 per the spec; their
initializers live in the missing header). -/
def EHT.new (bucket_size : Nat) : EHT :=
  { bucket_size_ := bucket_size, global_depth_ := 0, num_buckets_ := 1,
    store := [⟨bucket_size, 0, []⟩], dir_ := [0] }

/-- `ExtendibleHashTable::IndexOf`: `hash(key) & ((1 << global_depth_) - 1)`. -/
def EHT.IndexOf (h : Nat → Nat) (s : EHT) (key : Nat) : Nat :=
  h key &&& (2 ^ s.global_depth_ - 1)

/-- The bucket a directory slot points to.  Out-of-range access is
undefined behaviour in the source and unreachable from the constructor;
the defaults here are never hit on such states. -/
def EHT.bucketAt (s : EHT) (i : Nat) : Bucket :=
  s.store.getD (s.dir_.getD i 0) ⟨0, 0, []⟩

/-- `ExtendibleHashTable::Find`: look the key up in the bucket at
`IndexOf(key)`. -/
def EHT.Find (h : Nat → Nat) (s : EHT) (key : Nat) : Option Nat :=
  (s.bucketAt (s.IndexOf h key)).Find key

/-- The rewiring loop of `ExtendibleHashTable::Insert`: for
`i = hash(key) & (local_mask - 1); i < dir_.size(); i += local_mask`, point
slot `i` at `bucket1` when bit `local_depth` of `i` is set, else at
`bucket0`.  The loop visits exactly the slots congruent to `start` modulo
`local_mask`, which is how it is rendered here. -/
def rewire (dir : List Nat) (start local_mask id0 id1 : Nat) : List Nat :=
  dir.enum.map (fun p =>
    if p.1 % local_mask == start % local_mask then
      (if p.1 &&& local_mask != 0 then id1 else id0)
    else p.2)

/-- The split branch of `ExtendibleHashTable::Insert` (the body of
`if (dir_[index]->IsFull())`): double the directory when
`local_depth == global_depth_`, create two buckets of depth
`local_depth + 1`, rehash the old bucket's items by bit `local_depth` of
their hash, and rewire the aliased directory slots. -/
def EHT.splitBucket (h : Nat → Nat) (s : EHT) (key : Nat) : EHT :=
  let index := s.IndexOf h key
  let local_depth := (s.bucketAt index).depth_
  let s1 := if local_depth == s.global_depth_ then
      { s with global_depth_ := s.global_depth_ + 1, dir_ := s.dir_ ++ s.dir_ }
    else s
  let local_mask := 2 ^ local_depth
  let items := (s1.bucketAt index).list_
  let id0 := s1.store.length
  let id1 := s1.store.length + 1
  let b0 : Bucket := ⟨s1.bucket_size_, local_depth + 1, []⟩
  let b1 : Bucket := ⟨s1.bucket_size_, local_depth + 1, []⟩
  let pair := items.foldl (fun (bs : Bucket × Bucket) kv =>
      if h kv.1 &&& local_mask != 0 then (bs.1, (bs.2.Insert kv.1 kv.2).1)
      else ((bs.1.Insert kv.1 kv.2).1, bs.2)) (b0, b1)
  { s1 with
    num_buckets_ := s1.num_buckets_ + 1,
    store := s1.store ++ [pair.1, pair.2],
    dir_ := rewire s1.dir_ (h key &&& (local_mask - 1)) local_mask id0 id1 }

/-- `ExtendibleHashTable::Insert`: nothing happens when the key is already
present; otherwise a full target bucket is split once (an `if`, not a
loop, in the source), the index is recomputed, and `Bucket::Insert` is
attempted on the chosen bucket (its `bool` result is discarded). -/
def EHT.Insert (h : Nat → Nat) (s : EHT) (key value : Nat) : EHT :=
  match (s.bucketAt (s.IndexOf h key)).Find key with
  | some _ => s
  | none =>
    let s1 := if (s.bucketAt (s.IndexOf h key)).IsFull
      then s.splitBucket h key else s
    let index1 := s1.IndexOf h key
    let bid := s1.dir_.getD index1 0
    { s1 with store := s1.store.set bid ((s1.bucketAt index1).Insert key value).1 }

theorem splitBucket_num_buckets (h : Nat → Nat) (s : EHT) (key : Nat) :
    (s.splitBucket h key).num_buckets_ = s.num_buckets_ + 1 := by
  by_cases hd : ((s.bucketAt (s.IndexOf h key)).depth_ == s.global_depth_) = true <;>
    simp [EHT.splitBucket, hd]

theorem splitBucket_global_depth (h : Nat → Nat) (s : EHT) (key : Nat) :
    (s.splitBucket h key).global_depth_ ≤ s.global_depth_ + 1 := by
  by_cases hd : ((s.bucketAt (s.IndexOf h key)).depth_ == s.global_depth_) = true <;>
    simp [EHT.splitBucket, hd]

/-- C9: a single `ExtendibleHashTable::Insert` performs at most one bucket
split: for every starting state and every key/value, the bucket count
grows by at most one and the global depth by at most one (the split step
in the source is an `if`, never iterated). -/
theorem c9_single_split_bound (h : Nat → Nat) (s : EHT) (key value : Nat) :
    (s.Insert h key value).num_buckets_ ≤ s.num_buckets_ + 1 ∧
    (s.Insert h key value).global_depth_ ≤ s.global_depth_ + 1 := by
  unfold EHT.Insert
  cases hf : (s.bucketAt (s.IndexOf h key)).Find key with
  | some w => exact ⟨Nat.le_succ _, Nat.le_succ _⟩
  | none =>
    by_cases hful : (s.bucketAt (s.IndexOf h key)).IsFull = true
    · simp only [hful, if_true]
      exact ⟨Nat.le_of_eq (splitBucket_num_buckets h s key),
             splitBucket_global_depth h s key⟩
    · simp only [hful, if_false]
      exact ⟨Nat.le_succ _, Nat.le_succ _⟩

/-- C1: the source splits at most once per `Insert` and then silently
discards the pair when the recomputed target bucket is still full.  With
`bucket_size = 1` and the identity hash, after `Insert(0, 17)` the key `2`
is absent, yet after `Insert(2, 42)` a `Find(2)` still fails: the insert
was dropped because making room would have needed a second split. -/
theorem c1_multisplit_insert_dropped :
    EHT.Find id ((EHT.new 1).Insert id 0 17) 2 = none ∧
    EHT.Find id (((EHT.new 1).Insert id 0 17).Insert id 2 42) 2 = none := by
  constructor <;> rfl

/-- C5 counterexample: `Insert` on a key that is already present does not
overwrite.  With the identity hash, after `Insert(1, 10)` then
`Insert(1, 20)`, `Find(1)` still returns the old value 10, not 20 (the
whole insert body is guarded by `if (!(dir_[index]->Find(key, val)))`). -/
theorem c5_insert_no_overwrite :
    EHT.Find id ((EHT.new 2).Insert id 1 10) 1 = some 10 ∧
    EHT.Find id (((EHT.new 2).Insert id 1 10).Insert id 1 20) 1 ≠ some 20 := by
  decide

/-- C5 amended: when the key is already present in its bucket, `Insert`
leaves the table entirely unchanged, and a subsequent `Find` returns the
previously stored value rather than the new one. -/
theorem c5_insert_existing_noop (h : Nat → Nat) (s : EHT) (key value w : Nat)
    (hfind : EHT.Find h s key = some w) :
    s.Insert h key value = s ∧ EHT.Find h (s.Insert h key value) key = some w := by
  have hb : (s.bucketAt (s.IndexOf h key)).Find key = some w := hfind
  have heq : s.Insert h key value = s := by
    unfold EHT.Insert
    rw [hb]
  exact ⟨heq, by rw [heq]; exact hfind⟩

/-- C5 amended, witness: the concrete table holding `(1, 10)` under the
identity hash. -/
theorem c5_insert_existing_noop_witness :
    EHT.Find id ((EHT.new 2).Insert id 1 10) 1 = some 10 ∧
    (((EHT.new 2).Insert id 1 10).Insert id 1 20 = (EHT.new 2).Insert id 1 10 ∧
      EHT.Find id (((EHT.new 2).Insert id 1 10).Insert id 1 20) 1 = some 10) :=
  ⟨by rfl, c5_insert_existing_noop id ((EHT.new 2).Insert id 1 10) 1 20 10 (by rfl)⟩

/-! ## LRU-K replacer (`buffer/lru_k_replacer.cpp`)

The two ordered lists `list_` (history, FIFO) and `klist_` (cache, LRU)
are lists of frame ids with head = front; the `std::unordered_map`
`entries_` is an association list.  The `pos_` iterator stored in each
entry is represented by the frame's membership in whichever list holds
it, as the spec's design note recommends; erasing at `pos_` becomes
`List.erase` of the frame id, which removes the same element because a
frame occurs at most once across the two lists in every reachable
state. -/

/-- Per-frame entry of the replacer (`LRUKReplacer::Entry`): access count
and the user-controlled evictable flag. -/
structure RepEntry where
  count_ : Nat
  evictable_ : Bool
deriving Repr, DecidableEq

/-- Lookup in the entry map (an association list on frame id). -/
def getEntryL : List (Nat × RepEntry) → Nat → Option RepEntry
  | [], _ => none
  | p :: rest, f => if p.1 == f then some p.2 else getEntryL rest f

/-- Update-or-insert in the entry map (`entries_[frame_id] = ...`). -/
def setEntry : List (Nat × RepEntry) → Nat → RepEntry → List (Nat × RepEntry)
  | [], f, e => [(f, e)]
  | p :: rest, f, e =>
    if p.1 == f then (f, e) :: rest else p :: setEntry rest f e

/-- Erase from the entry map (`entries_.erase(entries_.find(frame_id))`). -/
def eraseEntry : List (Nat × RepEntry) → Nat → List (Nat × RepEntry)
  | [], _ => []
  | p :: rest, f => if p.1 == f then rest else p :: eraseEntry rest f

/-- State of `LRUKReplacer`.  The field `d_` is modelled from the spec: the
default value of `evictable_` in a default-constructed entry lives in the
missing header `lru_k_replacer.h`; the spec says entries are created
non-evictable, which corresponds to `d_ = false`. -/
structure LRUK where
  k_ : Nat
  d_ : Bool
  curr_size_ : Nat
  list_ : List Nat
  klist_ : List Nat
  entries_ : List (Nat × RepEntry)
deriving Repr, DecidableEq

/-- The constructor `LRUKReplacer(num_frames, k)`: empty lists, zero size
(`replacer_size_` is never read by the source, so it is omitted). -/
def LRUK.new (k : Nat) (d : Bool) : LRUK :=
  { k_ := k, d_ := d, curr_size_ := 0, list_ := [], klist_ := [], entries_ := [] }

/-- `LRUKReplacer::RecordAccess`: bump the (default-constructed on first
touch) entry's counter; on count 1 append to the history list and grow
`curr_size_`; on count = k move history → cache; on count > k move to the
back of the cache list. -/
def entryOrDefault (s : LRUK) (f : Nat) : RepEntry :=
  (getEntryL s.entries_ f).getD ⟨0, s.d_⟩

def LRUK.RecordAccess (s : LRUK) (f : Nat) : LRUK :=
  if (entryOrDefault s f).count_ + 1 == 1 then
    { s with
      entries_ := setEntry s.entries_ f
        ⟨(entryOrDefault s f).count_ + 1, (entryOrDefault s f).evictable_⟩,
      curr_size_ := s.curr_size_ + 1,
      list_ := s.list_ ++ [f] }
  else if (entryOrDefault s f).count_ + 1 == s.k_ then
    { s with
      entries_ := setEntry s.entries_ f
        ⟨(entryOrDefault s f).count_ + 1, (entryOrDefault s f).evictable_⟩,
      list_ := s.list_.erase f,
      klist_ := s.klist_ ++ [f] }
  else if s.k_ < (entryOrDefault s f).count_ + 1 then
    { s with
      entries_ := setEntry s.entries_ f
        ⟨(entryOrDefault s f).count_ + 1, (entryOrDefault s f).evictable_⟩,
      klist_ := (s.klist_.erase f) ++ [f] }
  else
    { s with
      entries_ := setEntry s.entries_ f
        ⟨(entryOrDefault s f).count_ + 1, (entryOrDefault s f).evictable_⟩ }

/-- `LRUKReplacer::SetEvictable`: no-op for unknown frames; adjusts
`curr_size_` only on an actual flag transition. -/
def LRUK.SetEvictable (s : LRUK) (f : Nat) (b : Bool) : LRUK :=
  match getEntryL s.entries_ f with
  | none => s
  | some e =>
    { s with
      curr_size_ :=
        if e.evictable_ && !b then s.curr_size_ - 1
        else if !e.evictable_ && b then s.curr_size_ + 1
        else s.curr_size_,
      entries_ := setEntry s.entries_ f ⟨e.count_, b⟩ }

/-- The evictability test `entries_[(*it)].evictable_` used by the scan
loops of `LRUKReplacer::Evict` (the `operator[]` default mirrors the
entry default `⟨0, d_⟩`; reachable states only test tracked frames). -/
def evictPred (s : LRUK) (f : Nat) : Bool :=
  ((getEntryL s.entries_ f).getD ⟨0, s.d_⟩).evictable_

/-- `LRUKReplacer::Evict`: first evictable frame of the history list, else
of the cache list; the victim is unlinked, its entry erased and
`curr_size_` decremented; the out-parameter becomes an `Option`. -/
def LRUK.Evict (s : LRUK) : Option Nat × LRUK :=
  match s.list_.find? (evictPred s) with
  | some f =>
    (some f, { s with list_ := s.list_.erase f,
                      entries_ := eraseEntry s.entries_ f,
                      curr_size_ := s.curr_size_ - 1 })
  | none =>
    match s.klist_.find? (evictPred s) with
    | some f =>
      (some f, { s with klist_ := s.klist_.erase f,
                        entries_ := eraseEntry s.entries_ f,
                        curr_size_ := s.curr_size_ - 1 })
    | none => (none, s)

/-- `LRUKReplacer::Remove`: no-op for unknown frames; for a tracked
non-evictable frame the source throws `std::logic_error` before mutating
anything, so the state is unchanged; otherwise the frame is unlinked from
the list selected by `count_ < k_` and its entry erased. -/
def LRUK.Remove (s : LRUK) (f : Nat) : LRUK :=
  match getEntryL s.entries_ f with
  | none => s
  | some e =>
    if !e.evictable_ then s
    else if e.count_ < s.k_ then
      { s with list_ := s.list_.erase f,
               curr_size_ := s.curr_size_ - 1,
               entries_ := eraseEntry s.entries_ f }
    else
      { s with klist_ := s.klist_.erase f,
               curr_size_ := s.curr_size_ - 1,
               entries_ := eraseEntry s.entries_ f }

/-- `LRUKReplacer::Size`: returns `curr_size_`. -/
def LRUK.Size (s : LRUK) : Nat := s.curr_size_

/-- The number of tracked frames whose evictable flag is set (what the
spec says `Size` reports). -/
def countEvictable (s : LRUK) : Nat :=
  (s.entries_.filter (fun p => p.2.evictable_)).length

/-- One public replacer call, for quantifying over call sequences. -/
inductive ROp where
  | access (f : Nat)
  | setEv (f : Nat) (b : Bool)
  | evict
  | remove (f : Nat)
deriving Repr, DecidableEq

def applyROp (s : LRUK) : ROp → LRUK
  | ROp.access f => s.RecordAccess f
  | ROp.setEv f b => s.SetEvictable f b
  | ROp.evict => (s.Evict).2
  | ROp.remove f => s.Remove f

/-- The replacer state after a sequence of public calls on a fresh
`LRUKReplacer(_, k)`. -/
def runOps (k : Nat) (d : Bool) (ops : List ROp) : LRUK :=
  ops.foldl applyROp (LRUK.new k d)

/-- A state reachable by some call sequence from a fresh replacer. -/
def Reached (k : Nat) (d : Bool) (s : LRUK) : Prop :=
  ∃ ops, s = runOps k d ops

/-! ### Association-list lemmas for the entry map -/

theorem getEntryL_setEntry_self (l : List (Nat × RepEntry)) (f : Nat) (e : RepEntry) :
    getEntryL (setEntry l f e) f = some e := by
  induction l with
  | nil => simp [setEntry, getEntryL]
  | cons p rest ih =>
    by_cases hp : p.1 = f
    · simp [setEntry, getEntryL, hp]
    · simp [setEntry, getEntryL, hp, ih]

theorem getEntryL_setEntry_ne (l : List (Nat × RepEntry)) (f g : Nat) (e : RepEntry)
    (hne : g ≠ f) : getEntryL (setEntry l f e) g = getEntryL l g := by
  induction l with
  | nil => simp [setEntry, getEntryL, Ne.symm hne]
  | cons p rest ih =>
    by_cases hp : p.1 = f
    · have hg : p.1 ≠ g := fun hcon => hne (by rw [← hcon, hp])
      simp [setEntry, getEntryL, hp, hg, Ne.symm hne]
    · by_cases hg : p.1 = g
      · simp [setEntry, getEntryL, hp, hg, hne]
      · simp [setEntry, getEntryL, hp, hg, ih]

theorem mem_setEntry (l : List (Nat × RepEntry)) (f : Nat) (e : RepEntry)
    (p : Nat × RepEntry) (hmem : p ∈ setEntry l f e) : p = (f, e) ∨ p ∈ l := by
  induction l with
  | nil => simpa [setEntry] using hmem
  | cons q rest ih =>
    by_cases hq : q.1 = f
    · simp only [setEntry, beq_iff_eq, hq, if_true] at hmem
      rcases List.mem_cons.mp hmem with h | h
      · exact Or.inl h
      · exact Or.inr (List.mem_cons_of_mem q h)
    · simp only [setEntry, beq_iff_eq, hq, if_false] at hmem
      rcases List.mem_cons.mp hmem with h | h
      · exact Or.inr (h ▸ List.mem_cons_self q rest)
      · rcases ih h with h2 | h2
        · exact Or.inl h2
        · exact Or.inr (List.mem_cons_of_mem q h2)

theorem getEntryL_eq_none_iff (l : List (Nat × RepEntry)) (f : Nat) :
    getEntryL l f = none ↔ f ∉ l.map (fun p => p.1) := by
  induction l with
  | nil => simp [getEntryL]
  | cons p rest ih =>
    by_cases hp : p.1 = f
    · simp [getEntryL, hp]
    · simp [getEntryL, hp, ih, Ne.symm hp]

theorem getEntryL_mem (l : List (Nat × RepEntry)) (f : Nat) (e : RepEntry)
    (hget : getEntryL l f = some e) : (f, e) ∈ l := by
  induction l with
  | nil => simp [getEntryL] at hget
  | cons p rest ih =>
    obtain ⟨p1, p2⟩ := p
    by_cases hp : p1 = f
    · subst hp
      simp only [getEntryL, beq_self_eq_true, if_true, Option.some.injEq] at hget
      subst hget
      exact List.mem_cons_self _ _
    · simp only [getEntryL, beq_iff_eq, hp, if_false] at hget
      exact List.mem_cons_of_mem _ (ih hget)

theorem mem_getEntryL (l : List (Nat × RepEntry)) (f : Nat) (e : RepEntry)
    (hnd : (l.map (fun p => p.1)).Nodup) (hmem : (f, e) ∈ l) :
    getEntryL l f = some e := by
  induction l with
  | nil => simp at hmem
  | cons p rest ih =>
    simp only [List.map_cons, List.nodup_cons] at hnd
    rcases List.mem_cons.mp hmem with h | h
    · simp [getEntryL, ← h]
    · have hp : p.1 ≠ f := by
        intro hcon
        exact hnd.1 (hcon ▸ List.mem_map_of_mem (fun q => q.1) h)
      simp only [getEntryL, beq_iff_eq, hp, if_false]
      exact ih hnd.2 h

theorem keys_setEntry_found (l : List (Nat × RepEntry)) (f : Nat) (e : RepEntry)
    (hf : f ∈ l.map (fun p => p.1)) :
    (setEntry l f e).map (fun p => p.1) = l.map (fun p => p.1) := by
  induction l with
  | nil => simp at hf
  | cons p rest ih =>
    by_cases hp : p.1 = f
    · simp [setEntry, hp]
    · simp only [List.map_cons, List.mem_cons] at hf
      rcases hf with h | h
      · exact absurd h.symm hp
      · simp [setEntry, hp, ih h]

theorem keys_setEntry_new (l : List (Nat × RepEntry)) (f : Nat) (e : RepEntry)
    (hf : f ∉ l.map (fun p => p.1)) :
    (setEntry l f e).map (fun p => p.1) = l.map (fun p => p.1) ++ [f] := by
  induction l with
  | nil => simp [setEntry]
  | cons p rest ih =>
    simp only [List.map_cons, List.mem_cons] at hf
    push_neg at hf
    simp [setEntry, Ne.symm hf.1, ih hf.2]

theorem eraseEntry_not_found (l : List (Nat × RepEntry)) (f : Nat)
    (hf : f ∉ l.map (fun p => p.1)) : eraseEntry l f = l := by
  induction l with
  | nil => rfl
  | cons p rest ih =>
    simp only [List.map_cons, List.mem_cons] at hf
    push_neg at hf
    simp [eraseEntry, Ne.symm hf.1, ih hf.2]

theorem eraseEntry_sublist (l : List (Nat × RepEntry)) (f : Nat) :
    (eraseEntry l f).Sublist l := by
  induction l with
  | nil => exact List.Sublist.refl []
  | cons p rest ih =>
    by_cases hp : p.1 = f
    · rw [show eraseEntry (p :: rest) f = rest by simp [eraseEntry, hp]]
      exact List.sublist_cons_self p rest
    · rw [show eraseEntry (p :: rest) f = p :: eraseEntry rest f by
        simp [eraseEntry, hp]]
      exact List.Sublist.cons₂ p ih

theorem keys_eraseEntry_nodup (l : List (Nat × RepEntry)) (f : Nat)
    (hnd : (l.map (fun p => p.1)).Nodup) :
    ((eraseEntry l f).map (fun p => p.1)).Nodup :=
  List.Nodup.sublist (List.Sublist.map _ (eraseEntry_sublist l f)) hnd

theorem mem_eraseEntry (l : List (Nat × RepEntry)) (f : Nat) (p : Nat × RepEntry)
    (hnd : (l.map (fun q => q.1)).Nodup) (hmem : p ∈ eraseEntry l f) :
    p ∈ l ∧ p.1 ≠ f := by
  induction l with
  | nil => simp [eraseEntry] at hmem
  | cons q rest ih =>
    simp only [List.map_cons, List.nodup_cons] at hnd
    by_cases hq : q.1 = f
    · simp only [eraseEntry, beq_iff_eq, hq, if_true] at hmem
      refine ⟨List.mem_cons_of_mem q hmem, ?_⟩
      intro hcon
      exact hnd.1 (hq ▸ hcon ▸ List.mem_map_of_mem (fun r => r.1) hmem)
    · simp only [eraseEntry, beq_iff_eq, hq, if_false] at hmem
      rcases List.mem_cons.mp hmem with h | h
      · exact ⟨h ▸ List.mem_cons_self q rest, h ▸ hq⟩
      · rcases ih hnd.2 h with ⟨h1, h2⟩
        exact ⟨List.mem_cons_of_mem q h1, h2⟩

theorem getEntryL_eraseEntry_ne (l : List (Nat × RepEntry)) (f g : Nat)
    (hne : g ≠ f) : getEntryL (eraseEntry l f) g = getEntryL l g := by
  induction l with
  | nil => rfl
  | cons p rest ih =>
    by_cases hp : p.1 = f
    · have hg : p.1 ≠ g := fun hcon => hne (by rw [← hcon, hp])
      simp [eraseEntry, getEntryL, hp, hg, Ne.symm hne]
    · by_cases hg : p.1 = g
      · simp [eraseEntry, getEntryL, hp, hg, hne]
      · simp [eraseEntry, getEntryL, hp, hg, ih]

/-- Number of evictable entries in an entry map. -/
def countEvL (l : List (Nat × RepEntry)) : Nat :=
  (l.filter (fun p => p.2.evictable_)).length

theorem countEvictable_def (s : LRUK) : countEvictable s = countEvL s.entries_ := rfl

theorem countEvL_cons (p : Nat × RepEntry) (rest : List (Nat × RepEntry)) :
    countEvL (p :: rest) = (if p.2.evictable_ then 1 else 0) + countEvL rest := by
  by_cases hp : p.2.evictable_ <;>
    simp [countEvL, List.filter_cons, hp, Nat.add_comm]

theorem countEvL_setEntry (l : List (Nat × RepEntry)) (f : Nat) (e e0 : RepEntry)
    (hget : getEntryL l f = some e0) :
    countEvL (setEntry l f e) + (if e0.evictable_ then 1 else 0) =
      countEvL l + (if e.evictable_ then 1 else 0) := by
  induction l with
  | nil => simp [getEntryL] at hget
  | cons p rest ih =>
    by_cases hp : p.1 = f
    · simp only [getEntryL, beq_iff_eq, hp, if_true, Option.some.injEq] at hget
      subst hget
      simp only [setEntry, beq_iff_eq, hp, if_true, countEvL_cons]
      omega
    · simp only [getEntryL, beq_iff_eq, hp, if_false] at hget
      simp only [setEntry, beq_iff_eq, hp, if_false, countEvL_cons]
      have := ih hget
      omega

theorem countEvL_setEntry_new (l : List (Nat × RepEntry)) (f : Nat) (e : RepEntry)
    (hget : getEntryL l f = none) :
    countEvL (setEntry l f e) = countEvL l + (if e.evictable_ then 1 else 0) := by
  induction l with
  | nil =>
    by_cases he : e.evictable_ <;>
      simp [setEntry, countEvL, List.filter_cons, he]
  | cons p rest ih =>
    by_cases hp : p.1 = f
    · simp [getEntryL, hp] at hget
    · simp only [getEntryL, beq_iff_eq, hp, if_false] at hget
      simp only [setEntry, beq_iff_eq, hp, if_false, countEvL_cons]
      have := ih hget
      omega

theorem countEvL_eraseEntry (l : List (Nat × RepEntry)) (f : Nat) (e0 : RepEntry)
    (hget : getEntryL l f = some e0) :
    countEvL (eraseEntry l f) + (if e0.evictable_ then 1 else 0) = countEvL l := by
  induction l with
  | nil => simp [getEntryL] at hget
  | cons p rest ih =>
    by_cases hp : p.1 = f
    · simp only [getEntryL, beq_iff_eq, hp, if_true, Option.some.injEq] at hget
      subst hget
      simp only [eraseEntry, beq_iff_eq, hp, if_true, countEvL_cons]
      omega
    · simp only [getEntryL, beq_iff_eq, hp, if_false] at hget
      simp only [eraseEntry, beq_iff_eq, hp, if_false, countEvL_cons]
      have := ih hget
      omega

/-! ### The replacer invariant

Well-formedness of a replacer state: entry keys are distinct, the two
lists are duplicate-free and disjoint, every listed frame is tracked with
the matching access-count class (history under `k`, cache at or above
`k`), every tracked frame is on exactly one list, counts are positive,
and — when entries are created evictable (`d_ = true`) — `curr_size_`
counts exactly the tracked evictable frames.  `k_ ≥ 2` is required: for
`k_ ≤ 1` the source erases a history-list iterator from the cache list
(`RecordAccess` with `count > k_` on a frame still in `list_`), which is
undefined behaviour. -/
structure LRUK.WF (s : LRUK) : Prop where
  ksane : 2 ≤ s.k_
  keysNodup : (s.entries_.map (fun p => p.1)).Nodup
  listsNodup : (s.list_ ++ s.klist_).Nodup
  histTracked : ∀ f ∈ s.list_, ∃ e, getEntryL s.entries_ f = some e ∧ e.count_ < s.k_
  cacheTracked : ∀ f ∈ s.klist_, ∃ e, getEntryL s.entries_ f = some e ∧ s.k_ ≤ e.count_
  trackedListed : ∀ p ∈ s.entries_, p.1 ∈ s.list_ ∨ p.1 ∈ s.klist_
  countPos : ∀ p ∈ s.entries_, 1 ≤ p.2.count_
  sizeEq : s.d_ = true → s.curr_size_ = countEvL s.entries_

theorem wf_new (k : Nat) (d : Bool) (h2 : 2 ≤ k) : (LRUK.new k d).WF := by
  refine ⟨h2, ?_, ?_, ?_, ?_, ?_, ?_, ?_⟩ <;> simp [LRUK.new, countEvL]

theorem getEntryL_some_mem_keys (l : List (Nat × RepEntry)) (f : Nat) (e : RepEntry)
    (hget : getEntryL l f = some e) : f ∈ l.map (fun p => p.1) :=
  List.mem_map_of_mem (fun p => p.1) (getEntryL_mem l f e hget)

theorem wf_SetEvictable (s : LRUK) (f : Nat) (b : Bool) (hs : s.WF) :
    (s.SetEvictable f b).WF := by
  unfold LRUK.SetEvictable
  cases hget : getEntryL s.entries_ f with
  | none => exact hs
  | some e =>
    have hfe : (f, e) ∈ s.entries_ := getEntryL_mem _ _ _ hget
    refine ⟨hs.ksane, ?_, hs.listsNodup, ?_, ?_, ?_, ?_, ?_⟩
    · rw [keys_setEntry_found _ _ _ (getEntryL_some_mem_keys _ _ _ hget)]
      exact hs.keysNodup
    · intro g hg
      rcases hs.histTracked g hg with ⟨eg, hgetg, hlt⟩
      by_cases hgf : g = f
      · subst hgf
        rw [hget] at hgetg
        cases hgetg
        exact ⟨⟨e.count_, b⟩, getEntryL_setEntry_self _ _ _, hlt⟩
      · exact ⟨eg, (getEntryL_setEntry_ne _ _ _ _ hgf).trans hgetg, hlt⟩
    · intro g hg
      rcases hs.cacheTracked g hg with ⟨eg, hgetg, hle⟩
      by_cases hgf : g = f
      · subst hgf
        rw [hget] at hgetg
        cases hgetg
        exact ⟨⟨e.count_, b⟩, getEntryL_setEntry_self _ _ _, hle⟩
      · exact ⟨eg, (getEntryL_setEntry_ne _ _ _ _ hgf).trans hgetg, hle⟩
    · intro p hp
      rcases mem_setEntry _ _ _ _ hp with h | h
      · subst h
        exact hs.trackedListed (f, e) hfe
      · exact hs.trackedListed p h
    · intro p hp
      rcases mem_setEntry _ _ _ _ hp with h | h
      · subst h
        exact hs.countPos (f, e) hfe
      · exact hs.countPos p h
    · intro hd
      have hsz := hs.sizeEq hd
      have hset := countEvL_setEntry s.entries_ f ⟨e.count_, b⟩ e hget
      by_cases hev : e.evictable_ = true <;> by_cases hb : b = true <;>
        simp only [hev, hb, Bool.not_true, Bool.not_false, Bool.and_true,
          Bool.and_false, Bool.true_and, Bool.false_and, Bool.and_self,
          Bool.false_eq_true, if_true, if_false,
          Bool.not_eq_true] at hset ⊢ <;>
        omega

theorem wf_unlink_hist (s : LRUK) (f : Nat) (e : RepEntry) (hs : s.WF)
    (hget : getEntryL s.entries_ f = some e) (hev : e.evictable_ = true)
    (hfl : f ∈ s.list_) :
    ({ s with list_ := s.list_.erase f,
              curr_size_ := s.curr_size_ - 1,
              entries_ := eraseEntry s.entries_ f } : LRUK).WF := by
  rcases List.nodup_append.mp hs.listsNodup with ⟨hnl, hnk, hdisj⟩
  have hfk : f ∉ s.klist_ := hdisj hfl
  refine ⟨hs.ksane, keys_eraseEntry_nodup _ _ hs.keysNodup, ?_, ?_, ?_, ?_, ?_, ?_⟩
  · exact List.nodup_append.mpr ⟨hnl.erase f, hnk,
      fun a ha => hdisj (List.mem_of_mem_erase ha)⟩
  · intro g hg
    rcases (hnl.mem_erase_iff).mp hg with ⟨hgf, hgl⟩
    rcases hs.histTracked g hgl with ⟨eg, hgetg, hlt⟩
    exact ⟨eg, (getEntryL_eraseEntry_ne _ _ _ hgf).trans hgetg, hlt⟩
  · intro g hg
    have hgf : g ≠ f := fun hcon => hfk (hcon ▸ hg)
    rcases hs.cacheTracked g hg with ⟨eg, hgetg, hle⟩
    exact ⟨eg, (getEntryL_eraseEntry_ne _ _ _ hgf).trans hgetg, hle⟩
  · intro p hp
    rcases mem_eraseEntry _ _ _ hs.keysNodup hp with ⟨hpin, hpne⟩
    rcases hs.trackedListed p hpin with h | h
    · exact Or.inl ((hnl.mem_erase_iff).mpr ⟨hpne, h⟩)
    · exact Or.inr h
  · intro p hp
    exact hs.countPos p (mem_eraseEntry _ _ _ hs.keysNodup hp).1
  · intro hd
    have hsz := hs.sizeEq hd
    have herase := countEvL_eraseEntry s.entries_ f e hget
    rw [hev] at herase
    simp only [if_true] at herase
    simp only []
    omega

theorem wf_unlink_cache (s : LRUK) (f : Nat) (e : RepEntry) (hs : s.WF)
    (hget : getEntryL s.entries_ f = some e) (hev : e.evictable_ = true)
    (hfk : f ∈ s.klist_) :
    ({ s with klist_ := s.klist_.erase f,
              curr_size_ := s.curr_size_ - 1,
              entries_ := eraseEntry s.entries_ f } : LRUK).WF := by
  rcases List.nodup_append.mp hs.listsNodup with ⟨hnl, hnk, hdisj⟩
  have hfl : f ∉ s.list_ := fun hcon => hdisj hcon hfk
  refine ⟨hs.ksane, keys_eraseEntry_nodup _ _ hs.keysNodup, ?_, ?_, ?_, ?_, ?_, ?_⟩
  · exact List.nodup_append.mpr ⟨hnl, hnk.erase f,
      fun a ha hmem => hdisj ha (List.mem_of_mem_erase hmem)⟩
  · intro g hg
    have hgf : g ≠ f := fun hcon => hfl (hcon ▸ hg)
    rcases hs.histTracked g hg with ⟨eg, hgetg, hlt⟩
    exact ⟨eg, (getEntryL_eraseEntry_ne _ _ _ hgf).trans hgetg, hlt⟩
  · intro g hg
    rcases (hnk.mem_erase_iff).mp hg with ⟨hgf, hgl⟩
    rcases hs.cacheTracked g hgl with ⟨eg, hgetg, hle⟩
    exact ⟨eg, (getEntryL_eraseEntry_ne _ _ _ hgf).trans hgetg, hle⟩
  · intro p hp
    rcases mem_eraseEntry _ _ _ hs.keysNodup hp with ⟨hpin, hpne⟩
    rcases hs.trackedListed p hpin with h | h
    · exact Or.inl h
    · exact Or.inr ((hnk.mem_erase_iff).mpr ⟨hpne, h⟩)
  · intro p hp
    exact hs.countPos p (mem_eraseEntry _ _ _ hs.keysNodup hp).1
  · intro hd
    have hsz := hs.sizeEq hd
    have herase := countEvL_eraseEntry s.entries_ f e hget
    rw [hev] at herase
    simp only [if_true] at herase
    simp only []
    omega

theorem wf_Remove (s : LRUK) (f : Nat) (hs : s.WF) : (s.Remove f).WF := by
  unfold LRUK.Remove
  cases hget : getEntryL s.entries_ f with
  | none => exact hs
  | some e =>
    have hfe : (f, e) ∈ s.entries_ := getEntryL_mem _ _ _ hget
    by_cases hev : e.evictable_ = true
    · simp only [hev, Bool.not_true, Bool.false_eq_true, if_false]
      by_cases hcnt : e.count_ < s.k_
      · simp only [hcnt, if_true]
        have hfl : f ∈ s.list_ := by
          rcases hs.trackedListed (f, e) hfe with h | h
          · exact h
          · rcases hs.cacheTracked f h with ⟨e2, hget2, hle⟩
            rw [hget] at hget2
            cases hget2
            exact absurd hcnt (not_lt.mpr hle)
        exact wf_unlink_hist s f e hs hget hev hfl
      · simp only [hcnt, if_false]
        have hfk : f ∈ s.klist_ := by
          rcases hs.trackedListed (f, e) hfe with h | h
          · rcases hs.histTracked f h with ⟨e2, hget2, hlt⟩
            rw [hget] at hget2
            cases hget2
            exact absurd hlt hcnt
          · exact h
        exact wf_unlink_cache s f e hs hget hev hfk
    · have hev2 : e.evictable_ = false := by
        cases hb : e.evictable_
        · rfl
        · exact absurd hb hev
      simp only [hev2, Bool.not_false, if_true]
      exact hs

theorem wf_Evict (s : LRUK) (hs : s.WF) : (s.Evict).2.WF := by
  unfold LRUK.Evict
  cases hfind : s.list_.find? (evictPred s) with
  | some f =>
    have hmem : f ∈ s.list_ := List.mem_of_find?_eq_some hfind
    have hpred : evictPred s f = true := List.find?_some hfind
    rcases hs.histTracked f hmem with ⟨e, hget, hlt⟩
    have hev : e.evictable_ = true := by
      simpa [evictPred, hget] using hpred
    exact wf_unlink_hist s f e hs hget hev hmem
  | none =>
    cases hfind2 : s.klist_.find? (evictPred s) with
    | some f =>
      have hmem : f ∈ s.klist_ := List.mem_of_find?_eq_some hfind2
      have hpred : evictPred s f = true := List.find?_some hfind2
      rcases hs.cacheTracked f hmem with ⟨e, hget, hle⟩
      have hev : e.evictable_ = true := by
        simpa [evictPred, hget] using hpred
      exact wf_unlink_cache s f e hs hget hev hmem
    | none => exact hs

theorem countEvL_setEntry_same (l : List (Nat × RepEntry)) (f : Nat) (e : RepEntry)
    (c2 : Nat) (hget : getEntryL l f = some e) :
    countEvL (setEntry l f ⟨c2, e.evictable_⟩) = countEvL l := by
  have hset := countEvL_setEntry l f ⟨c2, e.evictable_⟩ e hget
  cases hev : e.evictable_ with
  | false =>
    rw [hev] at hset
    simp at hset
    omega
  | true =>
    rw [hev] at hset
    simp at hset
    omega

theorem wf_RecordAccess (s : LRUK) (f : Nat) (hs : s.WF) :
    (s.RecordAccess f).WF := by
  rcases List.nodup_append.mp hs.listsNodup with ⟨hnl, hnk, hdisj⟩
  unfold LRUK.RecordAccess
  cases hget : getEntryL s.entries_ f with
  | none =>
    have hE : entryOrDefault s f = ⟨0, s.d_⟩ := by
      simp [entryOrDefault, hget]
    have hkeys : f ∉ s.entries_.map (fun p => p.1) :=
      (getEntryL_eq_none_iff _ _).mp hget
    have hfl : f ∉ s.list_ := fun hcon => by
      rcases hs.histTracked f hcon with ⟨e2, hget2, _⟩
      rw [hget] at hget2
      cases hget2
    have hfk : f ∉ s.klist_ := fun hcon => by
      rcases hs.cacheTracked f hcon with ⟨e2, hget2, _⟩
      rw [hget] at hget2
      cases hget2
    rw [hE]
    simp only [Nat.zero_add, beq_self_eq_true, if_true]
    refine ⟨hs.ksane, ?_, ?_, ?_, ?_, ?_, ?_, ?_⟩
    · rw [keys_setEntry_new _ _ _ hkeys]
      exact List.nodup_append.mpr ⟨hs.keysNodup, List.nodup_singleton f,
        fun a ha hcon => by
          rw [List.mem_singleton.mp hcon] at ha
          exact hkeys ha⟩
    · refine List.nodup_append.mpr ⟨?_, hnk, ?_⟩
      · exact List.nodup_append.mpr ⟨hnl, List.nodup_singleton f,
          fun a ha hcon => by
            rw [List.mem_singleton.mp hcon] at ha
            exact hfl ha⟩
      · intro a ha
        rcases List.mem_append.mp ha with h | h
        · exact hdisj h
        · rw [List.mem_singleton.mp h]
          exact hfk
    · intro g hg
      rcases List.mem_append.mp hg with h | h
      · have hgf : g ≠ f := fun hcon => hfl (hcon ▸ h)
        rcases hs.histTracked g h with ⟨eg, hgetg, hlt⟩
        exact ⟨eg, (getEntryL_setEntry_ne _ _ _ _ hgf).trans hgetg, hlt⟩
      · rw [List.mem_singleton.mp h]
        refine ⟨⟨0 + 1, s.d_⟩, getEntryL_setEntry_self _ _ _, ?_⟩
        exact lt_of_lt_of_le one_lt_two hs.ksane
    · intro g hg
      have hgf : g ≠ f := fun hcon => hfk (hcon ▸ hg)
      rcases hs.cacheTracked g hg with ⟨eg, hgetg, hle⟩
      exact ⟨eg, (getEntryL_setEntry_ne _ _ _ _ hgf).trans hgetg, hle⟩
    · intro p hp
      rcases mem_setEntry _ _ _ _ hp with h | h
      · subst h
        exact Or.inl (List.mem_append.mpr (Or.inr (List.mem_singleton.mpr rfl)))
      · rcases hs.trackedListed p h with h2 | h2
        · exact Or.inl (List.mem_append.mpr (Or.inl h2))
        · exact Or.inr h2
    · intro p hp
      rcases mem_setEntry _ _ _ _ hp with h | h
      · subst h
        exact Nat.le_refl 1
      · exact hs.countPos p h
    · intro hd
      have hsz := hs.sizeEq hd
      have hnew := countEvL_setEntry_new s.entries_ f ⟨1, s.d_⟩ hget
      rw [hd] at hnew ⊢
      simp at hnew
      simp only []
      omega
  | some e =>
    have hE : entryOrDefault s f = e := by
      simp [entryOrDefault, hget]
    have hfe : (f, e) ∈ s.entries_ := getEntryL_mem _ _ _ hget
    have hpos : 1 ≤ e.count_ := hs.countPos (f, e) hfe
    have hkeys : f ∈ s.entries_.map (fun p => p.1) :=
      getEntryL_some_mem_keys _ _ _ hget
    rw [hE]
    have hne1 : (e.count_ + 1 == 1) = false := by
      simp
      omega
    rw [hne1]
    simp only [Bool.false_eq_true, if_false]
    by_cases hk : (e.count_ + 1 == s.k_) = true
    · have hkeq : e.count_ + 1 = s.k_ := by simpa using hk
      have hfl : f ∈ s.list_ := by
        rcases hs.trackedListed (f, e) hfe with h | h
        · exact h
        · rcases hs.cacheTracked f h with ⟨e2, hget2, hle⟩
          rw [hget] at hget2
          cases hget2
          omega
      have hfk : f ∉ s.klist_ := hdisj hfl
      rw [hk]
      simp only [if_true]
      refine ⟨hs.ksane, ?_, ?_, ?_, ?_, ?_, ?_, ?_⟩
      · rw [keys_setEntry_found _ _ _ hkeys]
        exact hs.keysNodup
      · refine List.nodup_append.mpr ⟨hnl.erase f, ?_, ?_⟩
        · exact List.nodup_append.mpr ⟨hnk, List.nodup_singleton f,
            fun a ha hcon => by
              rw [List.mem_singleton.mp hcon] at ha
              exact hfk ha⟩
        · intro a ha
          rcases (hnl.mem_erase_iff).mp ha with ⟨haf, hal⟩
          intro hcon
          rcases List.mem_append.mp hcon with h | h
          · exact hdisj hal h
          · exact haf (List.mem_singleton.mp h)
      · intro g hg
        rcases (hnl.mem_erase_iff).mp hg with ⟨hgf, hgl⟩
        rcases hs.histTracked g hgl with ⟨eg, hgetg, hlt⟩
        exact ⟨eg, (getEntryL_setEntry_ne _ _ _ _ hgf).trans hgetg, hlt⟩
      · intro g hg
        rcases List.mem_append.mp hg with h | h
        · have hgf : g ≠ f := fun hcon => hfk (hcon ▸ h)
          rcases hs.cacheTracked g h with ⟨eg, hgetg, hle⟩
          exact ⟨eg, (getEntryL_setEntry_ne _ _ _ _ hgf).trans hgetg, hle⟩
        · rw [List.mem_singleton.mp h]
          exact ⟨⟨e.count_ + 1, e.evictable_⟩, getEntryL_setEntry_self _ _ _,
            Nat.le_of_eq hkeq.symm⟩
      · intro p hp
        rcases mem_setEntry _ _ _ _ hp with h | h
        · subst h
          exact Or.inr (List.mem_append.mpr (Or.inr (List.mem_singleton.mpr rfl)))
        · by_cases hpf : p.1 = f
          · exact Or.inr (List.mem_append.mpr (Or.inr (List.mem_singleton.mpr hpf)))
          · rcases hs.trackedListed p h with h2 | h2
            · exact Or.inl ((hnl.mem_erase_iff).mpr ⟨hpf, h2⟩)
            · exact Or.inr (List.mem_append.mpr (Or.inl h2))
      · intro p hp
        rcases mem_setEntry _ _ _ _ hp with h | h
        · subst h
          exact Nat.succ_le_succ (Nat.zero_le _)
        · exact hs.countPos p h
      · intro hd
        have hsz := hs.sizeEq hd
        have hsame := countEvL_setEntry_same s.entries_ f e (e.count_ + 1) hget
        simp only []
        omega
    · rw [Bool.not_eq_true] at hk
      rw [hk]
      simp only [Bool.false_eq_true, if_false]
      have hkne : e.count_ + 1 ≠ s.k_ := by
        intro hcon
        rw [← hcon] at hk
        simp at hk
      by_cases hk2 : s.k_ < e.count_ + 1
      · have hfk : f ∈ s.klist_ := by
          rcases hs.trackedListed (f, e) hfe with h | h
          · rcases hs.histTracked f h with ⟨e2, hget2, hlt⟩
            rw [hget] at hget2
            cases hget2
            omega
          · exact h
        have hfl : f ∉ s.list_ := fun hcon => hdisj hcon hfk
        rw [if_pos hk2]
        refine ⟨hs.ksane, ?_, ?_, ?_, ?_, ?_, ?_, ?_⟩
        · rw [keys_setEntry_found _ _ _ hkeys]
          exact hs.keysNodup
        · refine List.nodup_append.mpr ⟨hnl, ?_, ?_⟩
          · exact List.nodup_append.mpr ⟨hnk.erase f, List.nodup_singleton f,
              fun a ha hcon => by
                rw [List.mem_singleton.mp hcon] at ha
                exact ((hnk.mem_erase_iff).mp ha).1 rfl⟩
          · intro a ha hcon
            rcases List.mem_append.mp hcon with h | h
            · exact hdisj ha (List.mem_of_mem_erase h)
            · rw [List.mem_singleton.mp h] at ha
              exact hfl ha
        · intro g hg
          have hgf : g ≠ f := fun hcon => hfl (hcon ▸ hg)
          rcases hs.histTracked g hg with ⟨eg, hgetg, hlt⟩
          exact ⟨eg, (getEntryL_setEntry_ne _ _ _ _ hgf).trans hgetg, hlt⟩
        · intro g hg
          rcases List.mem_append.mp hg with h | h
          · rcases (hnk.mem_erase_iff).mp h with ⟨hgf, hgl⟩
            rcases hs.cacheTracked g hgl with ⟨eg, hgetg, hle⟩
            exact ⟨eg, (getEntryL_setEntry_ne _ _ _ _ hgf).trans hgetg, hle⟩
          · rw [List.mem_singleton.mp h]
            exact ⟨⟨e.count_ + 1, e.evictable_⟩, getEntryL_setEntry_self _ _ _,
              Nat.le_of_lt hk2⟩
        · intro p hp
          rcases mem_setEntry _ _ _ _ hp with h | h
          · subst h
            exact Or.inr (List.mem_append.mpr (Or.inr (List.mem_singleton.mpr rfl)))
          · by_cases hpf : p.1 = f
            · exact Or.inr (List.mem_append.mpr (Or.inr (List.mem_singleton.mpr hpf)))
            · rcases hs.trackedListed p h with h2 | h2
              · exact Or.inl h2
              · exact Or.inr (List.mem_append.mpr
                  (Or.inl ((hnk.mem_erase_iff).mpr ⟨hpf, h2⟩)))
        · intro p hp
          rcases mem_setEntry _ _ _ _ hp with h | h
          · subst h
            exact Nat.succ_le_succ (Nat.zero_le _)
          · exact hs.countPos p h
        · intro hd
          have hsz := hs.sizeEq hd
          have hsame := countEvL_setEntry_same s.entries_ f e (e.count_ + 1) hget
          simp only []
          omega
      · have hcnt : e.count_ + 1 < s.k_ := by omega
        have hfl : f ∈ s.list_ := by
          rcases hs.trackedListed (f, e) hfe with h | h
          · exact h
          · rcases hs.cacheTracked f h with ⟨e2, hget2, hle⟩
            rw [hget] at hget2
            cases hget2
            omega
        have hfk : f ∉ s.klist_ := hdisj hfl
        rw [if_neg hk2]
        refine ⟨hs.ksane, ?_, hs.listsNodup, ?_, ?_, ?_, ?_, ?_⟩
        · rw [keys_setEntry_found _ _ _ hkeys]
          exact hs.keysNodup
        · intro g hg
          by_cases hgf : g = f
          · subst hgf
            exact ⟨⟨e.count_ + 1, e.evictable_⟩, getEntryL_setEntry_self _ _ _, hcnt⟩
          · rcases hs.histTracked g hg with ⟨eg, hgetg, hlt⟩
            exact ⟨eg, (getEntryL_setEntry_ne _ _ _ _ hgf).trans hgetg, hlt⟩
        · intro g hg
          have hgf : g ≠ f := fun hcon => hfk (hcon ▸ hg)
          rcases hs.cacheTracked g hg with ⟨eg, hgetg, hle⟩
          exact ⟨eg, (getEntryL_setEntry_ne _ _ _ _ hgf).trans hgetg, hle⟩
        · intro p hp
          rcases mem_setEntry _ _ _ _ hp with h | h
          · subst h
            exact Or.inl hfl
          · exact hs.trackedListed p h
        · intro p hp
          rcases mem_setEntry _ _ _ _ hp with h | h
          · subst h
            exact Nat.succ_le_succ (Nat.zero_le _)
          · exact hs.countPos p h
        · intro hd
          have hsz := hs.sizeEq hd
          have hsame := countEvL_setEntry_same s.entries_ f e (e.count_ + 1) hget
          simp only []
          omega

theorem wf_applyROp (s : LRUK) (op : ROp) (hs : s.WF) : (applyROp s op).WF := by
  cases op with
  | access f => exact wf_RecordAccess s f hs
  | setEv f b => exact wf_SetEvictable s f b hs
  | evict => exact wf_Evict s hs
  | remove f => exact wf_Remove s f hs

theorem wf_runOps (k : Nat) (d : Bool) (ops : List ROp) (h2 : 2 ≤ k) :
    (runOps k d ops).WF := by
  suffices hgen : ∀ (l : List ROp) (s : LRUK), s.WF → (l.foldl applyROp s).WF by
    exact hgen ops _ (wf_new k d h2)
  intro l
  induction l with
  | nil => intro s hs; exact hs
  | cons op rest ih =>
    intro s hs
    exact ih _ (wf_applyROp s op hs)

theorem RecordAccess_kd (s : LRUK) (f : Nat) :
    (s.RecordAccess f).k_ = s.k_ ∧ (s.RecordAccess f).d_ = s.d_ := by
  unfold LRUK.RecordAccess
  split
  · exact ⟨rfl, rfl⟩
  · split
    · exact ⟨rfl, rfl⟩
    · split <;> exact ⟨rfl, rfl⟩

theorem SetEvictable_kd (s : LRUK) (f : Nat) (b : Bool) :
    (s.SetEvictable f b).k_ = s.k_ ∧ (s.SetEvictable f b).d_ = s.d_ := by
  unfold LRUK.SetEvictable
  cases hget : getEntryL s.entries_ f <;> exact ⟨rfl, rfl⟩

theorem Evict_kd (s : LRUK) :
    (s.Evict).2.k_ = s.k_ ∧ (s.Evict).2.d_ = s.d_ := by
  unfold LRUK.Evict
  cases hq : s.list_.find? (evictPred s)
  · cases hq2 : s.klist_.find? (evictPred s) <;> exact ⟨rfl, rfl⟩
  · exact ⟨rfl, rfl⟩

theorem Remove_kd (s : LRUK) (f : Nat) :
    (s.Remove f).k_ = s.k_ ∧ (s.Remove f).d_ = s.d_ := by
  unfold LRUK.Remove
  cases hget : getEntryL s.entries_ f
  · exact ⟨rfl, rfl⟩
  · constructor
    · split
      · rfl
      · split
        · rfl
        · split <;> rfl
    · split
      · rfl
      · split
        · rfl
        · split <;> rfl

theorem applyROp_kd (s : LRUK) (op : ROp) :
    (applyROp s op).k_ = s.k_ ∧ (applyROp s op).d_ = s.d_ := by
  cases op
  · exact RecordAccess_kd _ _
  · exact SetEvictable_kd _ _ _
  · exact Evict_kd _
  · exact Remove_kd _ _

theorem runOps_kd (k : Nat) (d : Bool) (ops : List ROp) :
    (runOps k d ops).k_ = k ∧ (runOps k d ops).d_ = d := by
  suffices hgen : ∀ (l : List ROp) (s : LRUK),
      (l.foldl applyROp s).k_ = s.k_ ∧ (l.foldl applyROp s).d_ = s.d_ by
    exact hgen ops (LRUK.new k d)
  intro l
  induction l with
  | nil => intro s; exact ⟨rfl, rfl⟩
  | cons op rest ih =>
    intro s
    rw [List.foldl_cons]
    rcases ih (applyROp s op) with ⟨h1, h2⟩
    rcases applyROp_kd s op with ⟨h3, h4⟩
    exact ⟨h1.trans h3, h2.trans h4⟩

theorem runOps_k (k : Nat) (d : Bool) (ops : List ROp) : (runOps k d ops).k_ = k :=
  (runOps_kd k d ops).1

theorem evict_order_of_wf (s : LRUK) (hwf : s.WF) :
    (∀ f, s.list_.find? (evictPred s) = some f → (s.Evict).1 = some f) ∧
    (s.list_.find? (evictPred s) = none →
      (s.Evict).1 = s.klist_.find? (evictPred s)) ∧
    ((s.Evict).1 = none ↔ ∀ p ∈ s.entries_, p.2.evictable_ = false) := by
  refine ⟨?_, ?_, ?_⟩
  · intro f hf
    unfold LRUK.Evict
    rw [hf]
  · intro hnone
    unfold LRUK.Evict
    rw [hnone]
    cases h2 : s.klist_.find? (evictPred s) <;> rfl
  · constructor
    · intro hev p hp
      unfold LRUK.Evict at hev
      cases h1 : s.list_.find? (evictPred s) with
      | some f =>
        rw [h1] at hev
        simp at hev
      | none =>
        rw [h1] at hev
        cases h2 : s.klist_.find? (evictPred s) with
        | some f =>
          rw [h2] at hev
          simp at hev
        | none =>
          have hall1 := List.find?_eq_none.mp h1
          have hall2 := List.find?_eq_none.mp h2
          have hget : getEntryL s.entries_ p.1 = some p.2 :=
            mem_getEntryL _ _ _ hwf.keysNodup hp
          rcases hwf.trackedListed p hp with h | h
          · have hpred := hall1 p.1 h
            simpa [evictPred, hget] using hpred
          · have hpred := hall2 p.1 h
            simpa [evictPred, hget] using hpred
    · intro hall
      unfold LRUK.Evict
      have h1 : s.list_.find? (evictPred s) = none := by
        apply List.find?_eq_none.mpr
        intro x hx
        rcases hwf.histTracked x hx with ⟨e, hget, _⟩
        have hxe : (x, e) ∈ s.entries_ := getEntryL_mem _ _ _ hget
        have hflag : e.evictable_ = false := hall (x, e) hxe
        simp [evictPred, hget, hflag]
      have h2 : s.klist_.find? (evictPred s) = none := by
        apply List.find?_eq_none.mpr
        intro x hx
        rcases hwf.cacheTracked x hx with ⟨e, hget, _⟩
        have hxe : (x, e) ∈ s.entries_ := getEntryL_mem _ _ _ hget
        have hflag : e.evictable_ = false := hall (x, e) hxe
        simp [evictPred, hget, hflag]
      rw [h1, h2]

/-- C6: after any call sequence on a fresh replacer with `k ≥ 2`, `Evict`
returns the first evictable frame of the history list scanned head to
tail; only when the history scan fails does it return the result of the
cache-list scan; it returns nothing exactly when no tracked frame is
evictable.  Every history frame has fewer than `k` recorded accesses and
every cache frame at least `k`, so an evictable under-`k` frame is always
chosen over any evictable at-or-above-`k` frame; and a first access
appends the frame at the history tail, so the history scan order is the
first-access order. -/
theorem c6_evict_order (k : Nat) (d : Bool) (ops : List ROp) (h2 : 2 ≤ k) :
    (∀ f, (runOps k d ops).list_.find? (evictPred (runOps k d ops)) = some f →
      ((runOps k d ops).Evict).1 = some f) ∧
    ((runOps k d ops).list_.find? (evictPred (runOps k d ops)) = none →
      ((runOps k d ops).Evict).1 =
        (runOps k d ops).klist_.find? (evictPred (runOps k d ops))) ∧
    (((runOps k d ops).Evict).1 = none ↔
      ∀ p ∈ (runOps k d ops).entries_, p.2.evictable_ = false) ∧
    (∀ f ∈ (runOps k d ops).list_,
      ∃ e, getEntryL (runOps k d ops).entries_ f = some e ∧ e.count_ < k) ∧
    (∀ f ∈ (runOps k d ops).klist_,
      ∃ e, getEntryL (runOps k d ops).entries_ f = some e ∧ k ≤ e.count_) ∧
    (∀ f, getEntryL (runOps k d ops).entries_ f = none →
      ((runOps k d ops).RecordAccess f).list_ = (runOps k d ops).list_ ++ [f]) := by
  have hwf := wf_runOps k d ops h2
  have hk := runOps_k k d ops
  rcases evict_order_of_wf (runOps k d ops) hwf with ⟨hA, hB, hC⟩
  refine ⟨hA, hB, hC, ?_, ?_, ?_⟩
  · intro f hf
    rcases hwf.histTracked f hf with ⟨e, hget, hlt⟩
    exact ⟨e, hget, hk ▸ hlt⟩
  · intro f hf
    rcases hwf.cacheTracked f hf with ⟨e, hget, hle⟩
    exact ⟨e, hget, hk ▸ hle⟩
  · intro f hget
    have hE : entryOrDefault (runOps k d ops) f = ⟨0, (runOps k d ops).d_⟩ := by
      simp [entryOrDefault, hget]
    unfold LRUK.RecordAccess
    rw [hE]
    simp

/-- C6 witness: a concrete run with `k = 2`. -/
theorem c6_evict_order_witness :
    2 ≤ 2 ∧
    ((∀ f, (runOps 2 true [ROp.access 0, ROp.access 1]).list_.find?
        (evictPred (runOps 2 true [ROp.access 0, ROp.access 1])) = some f →
      ((runOps 2 true [ROp.access 0, ROp.access 1]).Evict).1 = some f) ∧
    ((runOps 2 true [ROp.access 0, ROp.access 1]).list_.find?
        (evictPred (runOps 2 true [ROp.access 0, ROp.access 1])) = none →
      ((runOps 2 true [ROp.access 0, ROp.access 1]).Evict).1 =
        (runOps 2 true [ROp.access 0, ROp.access 1]).klist_.find?
          (evictPred (runOps 2 true [ROp.access 0, ROp.access 1]))) ∧
    (((runOps 2 true [ROp.access 0, ROp.access 1]).Evict).1 = none ↔
      ∀ p ∈ (runOps 2 true [ROp.access 0, ROp.access 1]).entries_,
        p.2.evictable_ = false) ∧
    (∀ f ∈ (runOps 2 true [ROp.access 0, ROp.access 1]).list_,
      ∃ e, getEntryL (runOps 2 true [ROp.access 0, ROp.access 1]).entries_ f =
        some e ∧ e.count_ < 2) ∧
    (∀ f ∈ (runOps 2 true [ROp.access 0, ROp.access 1]).klist_,
      ∃ e, getEntryL (runOps 2 true [ROp.access 0, ROp.access 1]).entries_ f =
        some e ∧ 2 ≤ e.count_) ∧
    (∀ f, getEntryL (runOps 2 true [ROp.access 0, ROp.access 1]).entries_ f = none →
      ((runOps 2 true [ROp.access 0, ROp.access 1]).RecordAccess f).list_ =
        (runOps 2 true [ROp.access 0, ROp.access 1]).list_ ++ [f])) :=
  ⟨by decide, c6_evict_order 2 true [ROp.access 0, ROp.access 1] (by decide)⟩

/-- C7 counterexample: with entries created non-evictable on first access,
as the spec states (`d_ = false`, modelled from the spec because the entry
default lives in the missing header), a single first-time `RecordAccess`
leaves `Size` at 1 while the number of tracked evictable frames is 0, so
`Size` does not equal the number of tracked evictable frames. -/
theorem c7_size_counts_nonevictable_entry :
    (runOps 2 false [ROp.access 0]).Size = 1 ∧
    countEvictable (runOps 2 false [ROp.access 0]) = 0 := by
  constructor <;> rfl

/-- C7 amended: with entries created evictable on first access (the only
default consistent with `RecordAccess` incrementing `curr_size_` at
creation), after any call sequence on a fresh replacer with `k ≥ 2`,
`Size` equals the number of tracked frames whose evictable flag is
true. -/
theorem c7_size_evictable_invariant (k : Nat) (ops : List ROp) (h2 : 2 ≤ k) :
    (runOps k true ops).Size = countEvictable (runOps k true ops) := by
  have hwf := wf_runOps k true ops h2
  exact hwf.sizeEq (runOps_kd k true ops).2

/-- C7 amended, witness: a concrete run. -/
theorem c7_size_evictable_invariant_witness :
    2 ≤ 2 ∧
    (runOps 2 true [ROp.access 0, ROp.setEv 0 false, ROp.access 1]).Size =
      countEvictable (runOps 2 true [ROp.access 0, ROp.setEv 0 false, ROp.access 1]) :=
  ⟨by decide,
    c7_size_evictable_invariant 2 [ROp.access 0, ROp.setEv 0 false, ROp.access 1]
      (by decide)⟩

/-! ## Buffer pool manager (`buffer/buffer_pool_manager.cpp`)

Frames are `Page` records; page data is abstracted to one `Nat` token
(`0` is zeroed memory, which `ResetMemory` produces); the synchronous
disk-manager calls are recorded as an event trace in program order.  The
page directory is the extendible hash table instantiated at
`<page_id_t, frame_id_t>`; for these claims it is modelled as the
page-id → frame-id association map it implements.  Out-of-bounds frame
access (possible only on states the constructor cannot produce, or on the
`DeletePage` path below) is undefined behaviour in C++ and is modelled as
`none`. -/

/-- A disk-manager call (`WritePage` / `ReadPage`), recorded in the order
the source issues them. -/
inductive DiskEv where
  | write (pid : Int) (data : Nat)
  | read (pid : Int)
deriving Repr, DecidableEq

/-- One frame of the pool (class `Page`): resident page id
(`INVALID_PAGE_ID = -1` when empty), pin count, dirty flag and abstract
data contents. -/
structure Page where
  page_id_ : Int
  pin_count_ : Int
  is_dirty_ : Bool
  data_ : Nat
deriving Repr, DecidableEq

/-- Lookup in the page directory (`page_table_->Find`). -/
def ptFind : List (Int × Nat) → Int → Option Nat
  | [], _ => none
  | p :: rest, pid => if p.1 == pid then some p.2 else ptFind rest pid

/-- Insert into the page directory (`page_table_->Insert`). -/
def ptInsert : List (Int × Nat) → Int → Nat → List (Int × Nat)
  | [], pid, fid => [(pid, fid)]
  | p :: rest, pid, fid =>
    if p.1 == pid then (pid, fid) :: rest else p :: ptInsert rest pid fid

/-- Remove from the page directory (`page_table_->Remove`). -/
def ptRemove : List (Int × Nat) → Int → List (Int × Nat)
  | [], _ => []
  | p :: rest, pid => if p.1 == pid then rest else p :: ptRemove rest pid

/-- State of `BufferPoolManager`. -/
structure BPM where
  next_page_id_ : Int
  pages_ : List Page
  page_table_ : List (Int × Nat)
  free_list_ : List Nat
  replacer_ : LRUK
deriving Repr, DecidableEq

/-- `BufferPoolManager::NewPage`: take a frame from the free list, else
evict a victim (writing it back first when dirty, then zeroing its memory
and removing its directory entry); allocate `next_page_id_++`, pin, record
access, set non-evictable, install in the directory.  Returns
`none` on an out-of-range frame (undefined behaviour), `some (none, ...)`
for the C++ `nullptr` result, and otherwise the new page id and frame
index together with the successor state and the disk-call trace. -/
def BPM.NewPage (s : BPM) : Option (Option (Int × Nat) × BPM × List DiskEv) :=
  match s.free_list_ with
  | fid :: rest =>
    match s.pages_.get? fid with
    | none => none
    | some page =>
      some (some (s.next_page_id_, fid),
        { s with next_page_id_ := s.next_page_id_ + 1,
                 pages_ := s.pages_.set fid
                   ({ page with page_id_ := s.next_page_id_,
                                pin_count_ := page.pin_count_ + 1 }),
                 free_list_ := rest,
                 replacer_ := (s.replacer_.RecordAccess fid).SetEvictable fid false,
                 page_table_ := ptInsert s.page_table_ s.next_page_id_ fid }, [])
  | [] =>
    match s.replacer_.Evict with
    | (some fid, rep0) =>
      match s.pages_.get? fid with
      | none => none
      | some page =>
        some (some (s.next_page_id_, fid),
          { s with next_page_id_ := s.next_page_id_ + 1,
                   pages_ := s.pages_.set fid
                     ({ page with page_id_ := s.next_page_id_,
                                  pin_count_ := page.pin_count_ + 1,
                                  is_dirty_ := false, data_ := 0 }),
                   replacer_ := (rep0.RecordAccess fid).SetEvictable fid false,
                   page_table_ := ptInsert (ptRemove s.page_table_ page.page_id_)
                     s.next_page_id_ fid },
          if page.is_dirty_ then [DiskEv.write page.page_id_ page.data_] else [])
    | (none, _) => some (none, s, [])

/-- `BufferPoolManager::FetchPage`: a directory hit pins and returns the
frame; a miss acquires a frame as in `NewPage` (dirty victim written back
first) and then reads the page from disk (`disk` is the disk contents,
read-only within the call). -/
def BPM.FetchPage (disk : Int → Nat) (s : BPM) (pid : Int) :
    Option (Option Nat × BPM × List DiskEv) :=
  match ptFind s.page_table_ pid with
  | some fid =>
    match s.pages_.get? fid with
    | none => none
    | some page =>
      some (some fid,
        { s with
          pages_ := s.pages_.set fid
            ({ page with pin_count_ := page.pin_count_ + 1 }),
          replacer_ := (s.replacer_.RecordAccess fid).SetEvictable fid false }, [])
  | none =>
    match s.free_list_ with
    | fid :: rest =>
      match s.pages_.get? fid with
      | none => none
      | some page =>
        some (some fid,
          { s with
            pages_ := s.pages_.set fid
              ({ page with page_id_ := pid, pin_count_ := page.pin_count_ + 1,
                           data_ := disk pid }),
            free_list_ := rest,
            replacer_ := (s.replacer_.RecordAccess fid).SetEvictable fid false,
            page_table_ := ptInsert s.page_table_ pid fid },
          [DiskEv.read pid])
    | [] =>
      match s.replacer_.Evict with
      | (some fid, rep0) =>
        match s.pages_.get? fid with
        | none => none
        | some page =>
          some (some fid,
            { s with
              pages_ := s.pages_.set fid
                ({ page with page_id_ := pid, pin_count_ := page.pin_count_ + 1,
                             is_dirty_ := false, data_ := disk pid }),
              replacer_ := (rep0.RecordAccess fid).SetEvictable fid false,
              page_table_ := ptInsert (ptRemove s.page_table_ page.page_id_) pid fid },
            (if page.is_dirty_ then [DiskEv.write page.page_id_ page.data_] else [])
              ++ [DiskEv.read pid])
      | (none, _) => some (none, s, [])

/-- `BufferPoolManager::UnpinPage`: false when the page is not resident or
its pin count is already non-positive; otherwise decrement the pin count,
and only when it reaches zero mark the frame evictable and OR the dirty
hint into the frame's dirty flag (both happen inside
`if (page->pin_count_ == 0)` in the source). -/
def BPM.UnpinPage (s : BPM) (pid : Int) (is_dirty : Bool) :
    Option (Bool × BPM) :=
  match ptFind s.page_table_ pid with
  | some fid =>
    match s.pages_.get? fid with
    | none => none
    | some page =>
      if page.pin_count_ ≤ 0 then some (false, s)
      else if page.pin_count_ - 1 = 0 then
        some (true,
          { s with
            pages_ := s.pages_.set fid
              ({ page with pin_count_ := page.pin_count_ - 1,
                           is_dirty_ := page.is_dirty_ || is_dirty }),
            replacer_ := s.replacer_.SetEvictable fid true })
      else
        some (true,
          { s with
            pages_ := s.pages_.set fid
              ({ page with pin_count_ := page.pin_count_ - 1 }) })
  | none => some (false, s)

/-- `BufferPoolManager::DeletePage`: the source returns true immediately
when the page IS resident (`if (can_find) { return true; }`), changing
nothing; on the not-resident path it then dereferences
`pages_ + frame_id` with `frame_id` still `-1`, an out-of-bounds access
(undefined behaviour, modelled as `none`); the flush/free/deallocate code
below the early return is unreachable. -/
def BPM.DeletePage (s : BPM) (pid : Int) : Option (Bool × BPM × List DiskEv) :=
  match ptFind s.page_table_ pid with
  | some _ => some (true, s, [])
  | none => none

/-- A concrete pool: one frame holding page 5 at pin count 2, clean. -/
def bpmPinnedTwice : BPM :=
  { next_page_id_ := 6,
    pages_ := [⟨5, 2, false, 7⟩],
    page_table_ := [(5, 0)],
    free_list_ := [],
    replacer_ := ⟨2, true, 0, [0], [], [(0, ⟨1, false⟩)]⟩ }

/-- C3 counterexample: with page 5 resident at pin count 2,
`UnpinPage(5, true)` returns true and decrements the pin count to 1, but
the frame's dirty flag stays false — the true dirty hint is lost, because
the source ORs the hint in only inside `if (page->pin_count_ == 0)`. -/
theorem c3_dirty_hint_lost :
    BPM.UnpinPage bpmPinnedTwice 5 true =
      some (true, { bpmPinnedTwice with
        pages_ := [{ page_id_ := 5, pin_count_ := 1,
                     is_dirty_ := false, data_ := 7 }] }) := by
  rfl

/-- C3 amended: for a resident page, `UnpinPage` returns false when the
pin count is already non-positive and otherwise returns true and
decrements it; the frame becomes evictable exactly when the pin count
reaches zero, and only in that case is the `is_dirty` argument ORed into
the frame's dirty flag — when the pin count stays positive the hint is
discarded.  For a non-resident page it returns false. -/
theorem c3_unpin_spec_amended (s : BPM) (pid : Int) (d : Bool) :
    (ptFind s.page_table_ pid = none → s.UnpinPage pid d = some (false, s)) ∧
    (∀ fid page, ptFind s.page_table_ pid = some fid →
      s.pages_.get? fid = some page →
      ((page.pin_count_ ≤ 0 → s.UnpinPage pid d = some (false, s)) ∧
       (page.pin_count_ = 1 → s.UnpinPage pid d = some (true,
          { s with
            pages_ := s.pages_.set fid
              ({ page with pin_count_ := 0,
                           is_dirty_ := page.is_dirty_ || d }),
            replacer_ := s.replacer_.SetEvictable fid true })) ∧
       (1 < page.pin_count_ → s.UnpinPage pid d = some (true,
          { s with
            pages_ := s.pages_.set fid
              ({ page with pin_count_ := page.pin_count_ - 1 }) })))) := by
  constructor
  · intro hnone
    unfold BPM.UnpinPage
    rw [hnone]
  · intro fid page hfind hpage
    refine ⟨?_, ?_, ?_⟩
    · intro hle
      unfold BPM.UnpinPage
      simp only [hfind, hpage]
      rw [if_pos hle]
    · intro h1
      unfold BPM.UnpinPage
      simp only [hfind, hpage]
      rw [if_neg (by omega), if_pos (by omega), h1]
      norm_num
    · intro hgt
      unfold BPM.UnpinPage
      simp only [hfind, hpage]
      rw [if_neg (by omega), if_neg (by omega)]

/-- C3 amended, witness: page 5 resident at pin count 3. -/
theorem c3_unpin_spec_amended_witness :
    ptFind (bpmPinnedTwice.page_table_) 5 = some 0 ∧
    ({ bpmPinnedTwice with pages_ := [⟨5, 3, false, 7⟩] } : BPM).pages_.get? 0 =
      some ⟨5, 3, false, 7⟩ ∧
    (1 : Int) < 3 ∧
    BPM.UnpinPage { bpmPinnedTwice with pages_ := [⟨5, 3, false, 7⟩] } 5 true =
      some (true, { bpmPinnedTwice with pages_ := [⟨5, 2, false, 7⟩] }) :=
  ⟨rfl, rfl, by norm_num,
    ((c3_unpin_spec_amended { bpmPinnedTwice with pages_ := [⟨5, 3, false, 7⟩] }
        5 true).2 0 ⟨5, 3, false, 7⟩ rfl rfl).2.2 (by norm_num)⟩

/-- A concrete pool: one frame holding page 5, unpinned and dirty. -/
def bpmResidentDirty : BPM :=
  { next_page_id_ := 6,
    pages_ := [⟨5, 0, true, 9⟩],
    page_table_ := [(5, 0)],
    free_list_ := [],
    replacer_ := ⟨2, true, 1, [0], [], [(0, ⟨1, true⟩)]⟩ }

/-- C4: the early return in `DeletePage` is inverted.  For page 5 resident
with pin count 0 and dirty, the source returns true while flushing
nothing, keeping the directory entry, never freeing the frame and never
deallocating the id; for a resident page with pin count 3 it also returns
true instead of false; and for a non-resident page id it dereferences
`pages_ + (-1)` (undefined behaviour) instead of returning true. -/
theorem c4_delete_resident_noop :
    BPM.DeletePage bpmResidentDirty 5 = some (true, bpmResidentDirty, []) ∧
    BPM.DeletePage { bpmResidentDirty with pages_ := [⟨5, 3, true, 9⟩] } 5 =
      some (true, { bpmResidentDirty with pages_ := [⟨5, 3, true, 9⟩] }, []) ∧
    BPM.DeletePage bpmResidentDirty 7 = none := by
  exact ⟨rfl, rfl, rfl⟩

/-- C8: on the eviction path (free list empty) of both `NewPage` and
`FetchPage`, a dirty victim's bytes (its pre-clear `data_`) are written to
its old page id as the first disk call, before the frame is cleared,
its directory entry removed and the frame reused; a clean victim produces
no write; and in `FetchPage` the write precedes the read of the new
page. -/
theorem c8_dirty_victim_written (s : BPM) (disk : Int → Nat) (pid : Int)
    (fid : Nat) (rep0 : LRUK) (page : Page)
    (hfree : s.free_list_ = [])
    (hev : s.replacer_.Evict = (some fid, rep0))
    (hpage : s.pages_.get? fid = some page) :
    (s.NewPage =
      some (some (s.next_page_id_, fid),
        { s with next_page_id_ := s.next_page_id_ + 1,
                 pages_ := s.pages_.set fid
                   ({ page with page_id_ := s.next_page_id_,
                                pin_count_ := page.pin_count_ + 1,
                                is_dirty_ := false, data_ := 0 }),
                 replacer_ := (rep0.RecordAccess fid).SetEvictable fid false,
                 page_table_ := ptInsert (ptRemove s.page_table_ page.page_id_)
                   s.next_page_id_ fid },
        if page.is_dirty_ then [DiskEv.write page.page_id_ page.data_] else [])) ∧
    (ptFind s.page_table_ pid = none →
      BPM.FetchPage disk s pid =
        some (some fid,
          { s with
            pages_ := s.pages_.set fid
              ({ page with page_id_ := pid, pin_count_ := page.pin_count_ + 1,
                           is_dirty_ := false, data_ := disk pid }),
            replacer_ := (rep0.RecordAccess fid).SetEvictable fid false,
            page_table_ := ptInsert (ptRemove s.page_table_ page.page_id_) pid fid },
          (if page.is_dirty_ then [DiskEv.write page.page_id_ page.data_] else [])
            ++ [DiskEv.read pid])) := by
  constructor
  · unfold BPM.NewPage
    simp only [hfree, hev, hpage]
  · intro hmiss
    unfold BPM.FetchPage
    simp only [hmiss, hfree, hev, hpage]

/-- A concrete pool for the C8 witness: one frame holding dirty page 5,
evictable. -/
def bpmVictim : BPM :=
  { next_page_id_ := 6,
    pages_ := [⟨5, 0, true, 9⟩],
    page_table_ := [(5, 0)],
    free_list_ := [],
    replacer_ := ⟨2, true, 1, [0], [], [(0, ⟨1, true⟩)]⟩ }

/-- C8 witness: evicting the dirty page 5 writes `(5, 9)` to disk before
the frame is reused; in `FetchPage` the write precedes the read of page
7. -/
theorem c8_dirty_victim_written_witness :
    bpmVictim.free_list_ = [] ∧
    bpmVictim.replacer_.Evict = (some 0, ⟨2, true, 0, [], [], []⟩) ∧
    bpmVictim.pages_.get? 0 = some ⟨5, 0, true, 9⟩ ∧
    BPM.NewPage bpmVictim =
      some (some (6, 0),
        { next_page_id_ := 7, pages_ := [⟨6, 1, false, 0⟩],
          page_table_ := [(6, 0)], free_list_ := [],
          replacer_ := ⟨2, true, 0, [0], [], [(0, ⟨1, false⟩)]⟩ },
        [DiskEv.write 5 9]) ∧
    BPM.FetchPage (fun _ => 0) bpmVictim 7 =
      some (some 0,
        { next_page_id_ := 6, pages_ := [⟨7, 1, false, 0⟩],
          page_table_ := [(7, 0)], free_list_ := [],
          replacer_ := ⟨2, true, 0, [0], [], [(0, ⟨1, false⟩)]⟩ },
        [DiskEv.write 5 9, DiskEv.read 7]) :=
  ⟨rfl, by decide, rfl,
    (c8_dirty_victim_written bpmVictim (fun _ => 0) 7 0 ⟨2, true, 0, [], [], []⟩
      ⟨5, 0, true, 9⟩ rfl (by decide) rfl).1,
    (c8_dirty_victim_written bpmVictim (fun _ => 0) 7 0 ⟨2, true, 0, [], [], []⟩
      ⟨5, 0, true, 9⟩ rfl (by decide) rfl).2 rfl⟩

/-! ## B+ tree pages (`storage/page/b_plus_tree_leaf_page.cpp`,
`storage/page/b_plus_tree_internal_page.cpp`, `storage/index/b_plus_tree.cpp`)

Keys and values are integers (`GenericKey` under `GenericComparator` is an
integer order; `RID` values are abstracted to integers).  A leaf page
carries its backing array explicitly: a freshly allocated page is
zero-filled, so reads beyond the occupied prefix (which `KeyIndex` and
`Insert` perform on an empty leaf) see the pair `(0, 0)`. -/

/-- `GenericComparator`: negative / zero / positive for less / equal /
greater. -/
def keyCmp (a b : Int) : Int :=
  if a < b then -1 else if b < a then 1 else 0

/-- `BPlusTreeLeafPage`: max size, current size, backing array (fixed
capacity, zero-filled at page birth) and the right-sibling link. -/
structure LeafPage where
  max_size_ : Nat
  size_ : Nat
  array_ : List (Int × Int)
  next_page_id_ : Int
deriving Repr, DecidableEq

/-- `KeyAt`: read slot `index` of the backing array (the source reads raw
page bytes; the default is never reached for in-capacity indices). -/
def LeafPage.KeyAt (leaf : LeafPage) (index : Int) : Int :=
  (leaf.array_.getD index.toNat (0, 0)).1

/-- `ValueAt`. -/
def LeafPage.ValueAt (leaf : LeafPage) (index : Int) : Int :=
  (leaf.array_.getD index.toNat (0, 0)).2

/-- The binary-search loop of `KeyIndex`: greatest index whose key
compares `≤ key`, else 0.  The window `[l, r]` shrinks every iteration, so
`size + 1` iterations of fuel always suffice; the fuel-exhausted branch is
unreachable. -/
def keyIndexLoop (leaf : LeafPage) (key : Int) :
    Nat → Int → Int → Int → Int
  | 0, _, _, ret => ret
  | fuel + 1, l, r, ret =>
    if l ≤ r then
      if keyCmp (leaf.KeyAt ((r - l) / 2 + l)) key ≤ 0 then
        keyIndexLoop leaf key fuel ((r - l) / 2 + l + 1) r ((r - l) / 2 + l)
      else
        keyIndexLoop leaf key fuel l ((r - l) / 2 + l - 1) ret
    else ret

/-- `BPlusTreeLeafPage::KeyIndex`. -/
def LeafPage.KeyIndex (leaf : LeafPage) (key : Int) : Int :=
  keyIndexLoop leaf key (leaf.size_ + 1) 0 ((leaf.size_ : Int) - 1) 0

/-- The shift loop of `BPlusTreeLeafPage::Insert`:
`for (i = size; i > insert_index; --i) array_[i] = array_[i-1]`
(structural recursion on the loop counter). -/
def shiftLoop : List (Int × Int) → Nat → Nat → List (Int × Int)
  | arr, 0, _ => arr
  | arr, i + 1, lo =>
    if lo < i + 1 then
      shiftLoop (arr.set (i + 1) (arr.getD i (0, 0))) i lo
    else arr

/-- `BPlusTreeLeafPage::Insert`: returns the page and the new `GetSize()`.
A key that compares equal to the key at the insertion index is rejected
(size returned unchanged); otherwise the slots are shifted and the source
writes `MappingType{}` — the default pair, not `(key, value)` — at the
insertion slot, then grows the size. -/
def LeafPage.Insert (leaf : LeafPage) (key value : Int) : LeafPage × Nat :=
  let insert_index := leaf.KeyIndex key
  if keyCmp (leaf.KeyAt insert_index) key = 0 then
    (leaf, leaf.size_)
  else
    ({ leaf with
       array_ := (shiftLoop leaf.array_ leaf.size_ insert_index.toNat).set
         insert_index.toNat (0, 0),
       size_ := leaf.size_ + 1 }, leaf.size_ + 1)

/-- `BPlusTreeLeafPage::Lookup`: exact match via `KeyIndex`; the
out-parameter becomes an `Option`. -/
def LeafPage.Lookup (leaf : LeafPage) (key : Int) : Option Int :=
  let index := leaf.KeyIndex key
  if index = (leaf.size_ : Int) ∨ keyCmp (leaf.KeyAt index) key ≠ 0 then
    none
  else
    some (leaf.ValueAt index)

/-- `BPlusTreeLeafPage::Init` on a freshly allocated (zero-filled) page:
size 0, no sibling, zeroed backing array. -/
def freshLeaf (max_size : Nat) : LeafPage :=
  { max_size_ := max_size, size_ := 0,
    array_ := List.replicate (max_size + 1) (0, 0),
    next_page_id_ := -1 }

/-- `BPlusTree::Insert` on an empty tree runs `StartNewTree`: a fresh page
becomes the root leaf and `leaf->Insert(key, value)` is called on it; this
is that composition, specialized to the root leaf it produces. -/
def StartNewTreeLeaf (key value : Int) (leaf_max_size : Nat) : LeafPage :=
  ((freshLeaf leaf_max_size).Insert key value).1

/-- `BPlusTree::GetValue` on a tree whose root is a leaf: `FindLeaf`
returns the root page without entering the descent loop, and the leaf's
`Lookup` decides the result. -/
def GetValueRootLeaf (leaf : LeafPage) (key : Int) : Option Int :=
  leaf.Lookup key

/-- C2: the round trip fails on the very first insert.  Into an empty tree
(`leaf_max_size` 3), `Insert(10, 99)` reports success (`leaf->Insert`
returns the grown size 1), but the leaf's slot 0 holds the
default-constructed pair `(0, 0)` — `array_[insert_index] = MappingType{}`
discards the supplied pair — so `GetValue(10)` returns false. -/
theorem c2_leaf_insert_discards_pair :
    GetValueRootLeaf (StartNewTreeLeaf 10 99 3) 10 = none ∧
    ((freshLeaf 3).Insert 10 99).2 = 1 ∧
    (StartNewTreeLeaf 10 99 3).size_ = 1 ∧
    (StartNewTreeLeaf 10 99 3).array_.getD 0 (0, 0) = (0, 0) := by
  exact ⟨rfl, rfl, rfl, rfl⟩

/-- `BPlusTreeInternalPage::ValueIndex`: linear scan of the occupied slots
(modelled as the list of `(key, child)` pairs, slot 0's key being the
unused sentinel) for the child; `-1` when absent. -/
def ValueIndex (arr : List (Int × Int)) (value : Int) : Int :=
  match arr.findIdx? (fun p => p.2 == value) with
  | some i => (i : Int)
  | none => -1

/-- `BPlusTreeInternalPage::InsertAfterNode`: shift every slot after the
located child one to the right and write `(key, new_value)` at the slot
right after it (`insert_index = ValueIndex(old_value) + 1`), growing the
size by one. -/
def InsertAfterNode (arr : List (Int × Int)) (old_value key new_value : Int) :
    List (Int × Int) :=
  arr.insertIdx (ValueIndex arr old_value + 1).toNat (key, new_value)

theorem findIdx?_eq_none_of_all {α : Type} (p : α → Bool) (l : List α)
    (h : ∀ x ∈ l, p x = false) : l.findIdx? p = none := by
  induction l with
  | nil => rfl
  | cons a rest ih =>
    rw [List.findIdx?_cons]
    rw [h a (List.mem_cons_self a rest)]
    simp only [Bool.false_eq_true, if_false]
    rw [List.findIdx?_succ]
    simp [ih (fun x hx => h x (List.mem_cons_of_mem a hx))]

/-- C10: when `old_value` does not occur among the node's children,
`ValueIndex` returns `-1`, so `InsertAfterNode` inserts `(key, new_value)`
at slot 0 and shifts every existing entry — the sentinel slot-0 child
included — one slot to the right, rather than failing. -/
theorem c10_insert_after_missing_child (arr : List (Int × Int))
    (old_value key new_value : Int)
    (habsent : ∀ p ∈ arr, p.2 ≠ old_value) :
    ValueIndex arr old_value = -1 ∧
    InsertAfterNode arr old_value key new_value = (key, new_value) :: arr := by
  have hidx : arr.findIdx? (fun p => p.2 == old_value) = none := by
    apply findIdx?_eq_none_of_all
    intro x hx
    exact beq_eq_false_iff_ne.mpr (habsent x hx)
  have h1 : ValueIndex arr old_value = -1 := by
    unfold ValueIndex
    rw [hidx]
  refine ⟨h1, ?_⟩
  unfold InsertAfterNode
  rw [h1]
  exact rfl

/-- C10 witness: a node with children 7 and 8; child 9 is absent, and the
pair `(3, 12)` lands at slot 0 with everything shifted right. -/
theorem c10_insert_after_missing_child_witness :
    (∀ p ∈ [((0 : Int), (7 : Int)), (5, 8)], p.2 ≠ 9) ∧
    (ValueIndex [((0 : Int), (7 : Int)), (5, 8)] 9 = -1 ∧
     InsertAfterNode [((0 : Int), (7 : Int)), (5, 8)] 9 3 12 =
       (3, 12) :: [(0, 7), (5, 8)]) :=
  ⟨by decide, c10_insert_after_missing_child [(0, 7), (5, 8)] 9 3 12 (by decide)⟩
